import Mathlib

/-!
Verification of the image-generator application (`image_generation_app.py`)
against its design specification.

The program is shallowly embedded: an image is a raster with integer
dimensions and a pixel function; the small pure transforms of the source
(`fit_into`, `make_color_transparent`, `generate_image`, the batch loop of
tab 2) are translated to Lean functions.  Python's IEEE-754 binary64
arithmetic in `fit_into` is modelled by an explicit round-to-nearest-even
function `fl` over `ℚ`; the float comparison `(...)**0.5 < threshold` of
`make_color_transparent` is bridged exactly to an integer comparison,
which is equivalent for integer radicands and thresholds.
-/

namespace ImageGen

/-- An RGBA pixel, as one entry of `img.getdata()`.  Components are natural
numbers; a well-formed 8-bit pixel has every component `≤ 255`. -/
structure Pixel where
  r : ℕ
  g : ℕ
  b : ℕ
  a : ℕ
deriving DecidableEq, Repr

/-- An RGB target color, as produced by the color picker. -/
structure RGB where
  r : ℕ
  g : ℕ
  b : ℕ
deriving DecidableEq, Repr

/-- An in-memory raster: integer dimensions and a pixel function.
`pix x y` is the pixel at column `x`, row `y` (only `x < width`,
`y < height` is meaningful). -/
@[ext]
structure Image where
  width : ℕ
  height : ℕ
  pix : ℕ → ℕ → Pixel

/-- Every 8-bit component of every in-bounds pixel is at most 255; the
image library guarantees this for images loaded from files. -/
def Image.Wf (img : Image) : Prop :=
  ∀ x, x < img.width → ∀ y, y < img.height →
    (img.pix x y).r ≤ 255 ∧ (img.pix x y).g ≤ 255 ∧ (img.pix x y).b ≤ 255

instance (img : Image) : Decidable img.Wf := by
  unfold Image.Wf; infer_instance

/-- The squared Euclidean RGB distance
`sum((item[i] - target_color[i])**2 for i in range(3))` between a pixel and
a target color (the source takes its square root before comparing). -/
def colorDistSq (p : Pixel) (c : RGB) : ℤ :=
  ((p.r : ℤ) - c.r) ^ 2 + ((p.g : ℤ) - c.g) ^ 2 + ((p.b : ℤ) - c.b) ^ 2

/-- The per-pixel body of the loop of `make_color_transparent`: if the
Euclidean distance is below the threshold the pixel becomes
`(item[0], item[1], item[2], 0)`, otherwise it is kept.  The float
comparison `diff**0.5 < threshold` is embedded as the equivalent integer
comparison `diff < threshold²` (see `sqrt_distSq_lt_iff`). -/
def transparentize (c : RGB) (threshold : ℕ) (p : Pixel) : Pixel :=
  if colorDistSq p c < (threshold : ℤ) ^ 2 then ⟨p.r, p.g, p.b, 0⟩ else p

/-- Embeds `make_color_transparent(img, target_color, threshold)`: applies
`transparentize` to every pixel (the source iterates `img.getdata()` and
writes the transformed list back with `img.putdata`). -/
def make_color_transparent (img : Image) (c : RGB) (threshold : ℕ) : Image :=
  ⟨img.width, img.height, fun x y => transparentize c threshold (img.pix x y)⟩

/-- The squared distance is nonnegative. -/
lemma colorDistSq_nonneg (p : Pixel) (c : RGB) : 0 ≤ colorDistSq p c := by
  unfold colorDistSq; positivity

/-- Bridge between the source's float comparison `diff**0.5 < threshold`
and the integer comparison used in the embedding: for a nonnegative
integer radicand, `sqrt d < t ↔ d < t²`. -/
lemma sqrt_lt_natCast_iff (d : ℤ) (hd : 0 ≤ d) (t : ℕ) :
    Real.sqrt (d : ℝ) < (t : ℝ) ↔ d < (t : ℤ) ^ 2 := by
  rcases Nat.eq_zero_or_pos t with ht | ht
  · subst ht
    simp only [Nat.cast_zero]
    constructor
    · intro h
      exact absurd h (not_lt.mpr (Real.sqrt_nonneg _))
    · intro h
      norm_num at h
      omega
  · rw [Real.sqrt_lt' (by exact_mod_cast ht)]
    constructor
    · intro h
      exact_mod_cast h
    · intro h
      exact_mod_cast h

/-- Specialisation of the bridge to `colorDistSq`. -/
lemma sqrt_distSq_lt_iff (p : Pixel) (c : RGB) (t : ℕ) :
    Real.sqrt ((colorDistSq p c : ℤ) : ℝ) < (t : ℝ) ↔
      colorDistSq p c < (t : ℤ) ^ 2 :=
  sqrt_lt_natCast_iff _ (colorDistSq_nonneg p c) t

/-- A concrete 1×1 test image used to instantiate proven theorems. -/
def wImg : Image := ⟨1, 1, fun _ _ => ⟨10, 20, 30, 255⟩⟩

/-- A concrete target color used to instantiate proven theorems. -/
def wTarget : RGB := ⟨0, 0, 0⟩

/-- C4: `make_color_transparent` maps each pixel independently: the
dimensions are kept, and at every in-bounds position, if the Euclidean RGB
distance from the pixel to the target color is strictly below the
threshold, the output pixel has the same RGB components with alpha 0;
otherwise the output pixel equals the input pixel. -/
theorem C4_remove_color_pixelwise (img : Image) (c : RGB) (t : ℕ)
    (x y : ℕ) (hx : x < img.width) (hy : y < img.height) :
    (make_color_transparent img c t).width = img.width ∧
    (make_color_transparent img c t).height = img.height ∧
    (Real.sqrt ((colorDistSq (img.pix x y) c : ℤ) : ℝ) < (t : ℝ) →
      (make_color_transparent img c t).pix x y =
        ⟨(img.pix x y).r, (img.pix x y).g, (img.pix x y).b, 0⟩) ∧
    (¬ Real.sqrt ((colorDistSq (img.pix x y) c : ℤ) : ℝ) < (t : ℝ) →
      (make_color_transparent img c t).pix x y = img.pix x y) := by
  refine ⟨rfl, rfl, ?_, ?_⟩
  · intro h
    rw [sqrt_distSq_lt_iff] at h
    simp [make_color_transparent, transparentize, h]
  · intro h
    rw [sqrt_distSq_lt_iff] at h
    simp [make_color_transparent, transparentize, h]

/-- Witness for C4 on the concrete image: the pixel `(10,20,30,255)` is at
distance `sqrt 1400 < 50` from black, so its alpha drops to 0. -/
theorem C4_remove_color_pixelwise_witness :
    (make_color_transparent wImg wTarget 50).pix 0 0 = ⟨10, 20, 30, 0⟩ :=
  (C4_remove_color_pixelwise wImg wTarget 50 0 0 (by decide) (by decide)).2.2.1
    ((sqrt_distSq_lt_iff (wImg.pix 0 0) wTarget 50).mpr (by decide))

/-- C5: with threshold 0, `make_color_transparent` returns the image
unchanged; with a threshold strictly greater than the maximum possible RGB
distance `sqrt (3·255²)`, it sets the alpha of every in-bounds pixel of a
well-formed 8-bit image to 0 (for a well-formed target color). -/
theorem C5_remove_color_extremes (img : Image) (c : RGB) :
    make_color_transparent img c 0 = img ∧
    ∀ t : ℕ, Real.sqrt ((3 * 255 ^ 2 : ℤ) : ℝ) < (t : ℝ) → img.Wf →
      c.r ≤ 255 → c.g ≤ 255 → c.b ≤ 255 →
      ∀ x, x < img.width → ∀ y, y < img.height →
        (make_color_transparent img c t).pix x y =
          ⟨(img.pix x y).r, (img.pix x y).g, (img.pix x y).b, 0⟩ := by
  constructor
  · have hpix : (fun x y => transparentize c 0 (img.pix x y)) = img.pix := by
      funext x y
      unfold transparentize
      rw [if_neg]
      have h := colorDistSq_nonneg (img.pix x y) c
      norm_num
      omega
    show (⟨img.width, img.height, fun x y => transparentize c 0 (img.pix x y)⟩ : Image) = img
    rw [hpix]
  · intro t ht hwf hcr hcg hcb x hx y hy
    rw [sqrt_lt_natCast_iff (3 * 255 ^ 2) (by norm_num) t] at ht
    obtain ⟨hr, hg, hb⟩ := hwf x hx y hy
    have hr' : ((img.pix x y).r : ℤ) ≤ 255 := by exact_mod_cast hr
    have hg' : ((img.pix x y).g : ℤ) ≤ 255 := by exact_mod_cast hg
    have hb' : ((img.pix x y).b : ℤ) ≤ 255 := by exact_mod_cast hb
    have hcr' : ((c.r : ℤ)) ≤ 255 := by exact_mod_cast hcr
    have hcg' : ((c.g : ℤ)) ≤ 255 := by exact_mod_cast hcg
    have hcb' : ((c.b : ℤ)) ≤ 255 := by exact_mod_cast hcb
    have h0r : (0 : ℤ) ≤ (img.pix x y).r := Int.natCast_nonneg _
    have h0g : (0 : ℤ) ≤ (img.pix x y).g := Int.natCast_nonneg _
    have h0b : (0 : ℤ) ≤ (img.pix x y).b := Int.natCast_nonneg _
    have h0cr : (0 : ℤ) ≤ c.r := Int.natCast_nonneg _
    have h0cg : (0 : ℤ) ≤ c.g := Int.natCast_nonneg _
    have h0cb : (0 : ℤ) ≤ c.b := Int.natCast_nonneg _
    have e1 : (((img.pix x y).r : ℤ) - c.r) ^ 2 ≤ 255 ^ 2 :=
      sq_le_sq' (by omega) (by omega)
    have e2 : (((img.pix x y).g : ℤ) - c.g) ^ 2 ≤ 255 ^ 2 :=
      sq_le_sq' (by omega) (by omega)
    have e3 : (((img.pix x y).b : ℤ) - c.b) ^ 2 ≤ 255 ^ 2 :=
      sq_le_sq' (by omega) (by omega)
    have hd : colorDistSq (img.pix x y) c < (t : ℤ) ^ 2 := by
      unfold colorDistSq
      linarith
    simp [make_color_transparent, transparentize, hd]

/-- Witness for C5 on the concrete image: threshold 0 is the identity, and
threshold 442 (the least integer above `sqrt (3·255²) ≈ 441.67`) clears
the alpha of the pixel. -/
theorem C5_remove_color_extremes_witness :
    make_color_transparent wImg wTarget 0 = wImg ∧
    (make_color_transparent wImg wTarget 442).pix 0 0 = ⟨10, 20, 30, 0⟩ :=
  ⟨(C5_remove_color_extremes wImg wTarget).1,
   (C5_remove_color_extremes wImg wTarget).2 442
     ((sqrt_lt_natCast_iff (3 * 255 ^ 2) (by norm_num) 442).mpr (by norm_num))
     (by decide) (by decide) (by decide) (by decide)
     0 (by decide) 0 (by decide)⟩

/-- Embeds `img.resize((w, h), Image.LANCZOS)`: the output raster has exactly the
requested dimensions.  The LANCZOS resampling kernel is library code
outside this repository; the sampler below merely stands in for it, and no
verified property depends on resampled pixel values. -/
def Image.resize (img : Image) (w h : ℕ) : Image :=
  ⟨w, h, fun x y => img.pix (x * img.width / w) (y * img.height / h)⟩

/-- Fuel-driven base-2 logarithm on naturals (structural recursion, so
that it evaluates inside the kernel). -/
def log2fuel : ℕ → ℕ → ℕ
  | 0, _ => 0
  | f + 1, n => if n < 2 then 0 else log2fuel f (n / 2) + 1

/-- Base-2 logarithm: the largest `e` with `2 ^ e ≤ n` (for `n > 0`). -/
def natLog2 (n : ℕ) : ℕ := log2fuel n n

lemma log2fuel_spec (f : ℕ) : ∀ n, 0 < n → n ≤ f →
    2 ^ log2fuel f n ≤ n ∧ n < 2 ^ (log2fuel f n + 1) := by
  induction f with
  | zero => intro n h1 h2; exact absurd h1 (by omega)
  | succ f ih =>
      intro n h1 h2
      simp only [log2fuel]
      split_ifs with hn
      · constructor
        · simpa using h1
        · norm_num
          omega
      · have hd : 0 < n / 2 := by omega
        have hd2 : n / 2 ≤ f := by omega
        obtain ⟨ha, hb⟩ := ih (n / 2) hd hd2
        rw [pow_succ] at hb
        constructor
        · rw [pow_succ]
          omega
        · rw [pow_succ, pow_succ]
          omega

lemma natLog2_spec (n : ℕ) (hn : 0 < n) :
    2 ^ natLog2 n ≤ n ∧ n < 2 ^ (natLog2 n + 1) :=
  log2fuel_spec n n hn le_rfl

/-- The binary exponent `⌊log₂ q⌋` of a positive rational. -/
def qExp (q : ℚ) : ℤ :=
  if (2:ℚ) ^ ((natLog2 q.num.toNat : ℤ) - natLog2 q.den) ≤ q then
    (natLog2 q.num.toNat : ℤ) - natLog2 q.den
  else (natLog2 q.num.toNat : ℤ) - natLog2 q.den - 1

lemma qExp_spec (q : ℚ) (hq : 0 < q) :
    (2:ℚ) ^ qExp q ≤ q ∧ q < 2 ^ (qExp q + 1) := by
  have hnum : 0 < q.num.toNat := by
    have := Rat.num_pos.mpr hq
    omega
  have hden : 0 < q.den := q.den_pos
  obtain ⟨ha1, ha2⟩ := natLog2_spec _ hnum
  obtain ⟨hb1, hb2⟩ := natLog2_spec _ hden
  set la : ℕ := natLog2 q.num.toNat with hla
  set lb : ℕ := natLog2 q.den with hlb
  have hA1 : (2:ℚ) ^ ((la : ℕ) : ℤ) ≤ (q.num.toNat : ℚ) := by
    rw [zpow_natCast]
    exact_mod_cast ha1
  have hA2 : (q.num.toNat : ℚ) < 2 ^ (((la : ℕ) : ℤ) + 1) := by
    rw [show ((la : ℕ) : ℤ) + 1 = ((la + 1 : ℕ) : ℤ) by push_cast; ring,
      zpow_natCast]
    exact_mod_cast ha2
  have hB1 : (2:ℚ) ^ ((lb : ℕ) : ℤ) ≤ (q.den : ℚ) := by
    rw [zpow_natCast]
    exact_mod_cast hb1
  have hB2 : (q.den : ℚ) < 2 ^ (((lb : ℕ) : ℤ) + 1) := by
    rw [show ((lb : ℕ) : ℤ) + 1 = ((lb + 1 : ℕ) : ℤ) by push_cast; ring,
      zpow_natCast]
    exact_mod_cast hb2
  have hBpos : (0:ℚ) < (q.den : ℚ) := by exact_mod_cast hden
  have hqe : q = (q.num.toNat : ℚ) / (q.den : ℚ) := by
    conv_lhs => rw [← Rat.num_div_den q]
    congr 1
    exact_mod_cast (Int.toNat_of_nonneg (le_of_lt (Rat.num_pos.mpr hq))).symm
  have hup : q < 2 ^ ((la : ℤ) - lb + 1) := by
    conv_lhs => rw [hqe]
    rw [div_lt_iff₀ hBpos]
    calc (q.num.toNat : ℚ) < 2 ^ (((la : ℕ) : ℤ) + 1) := hA2
      _ = 2 ^ ((la : ℤ) - lb + 1) * 2 ^ ((lb : ℕ) : ℤ) := by
          rw [← zpow_add₀ (by norm_num : (2:ℚ) ≠ 0)]
          ring_nf
      _ ≤ 2 ^ ((la : ℤ) - lb + 1) * (q.den : ℚ) := by
          apply mul_le_mul_of_nonneg_left hB1 (by positivity)
  have hlo : (2:ℚ) ^ ((la : ℤ) - lb - 1) < q := by
    conv_rhs => rw [hqe]
    rw [lt_div_iff₀ hBpos]
    calc (2:ℚ) ^ ((la : ℤ) - lb - 1) * (q.den : ℚ)
        < 2 ^ ((la : ℤ) - lb - 1) * 2 ^ (((lb : ℕ) : ℤ) + 1) := by
          apply mul_lt_mul_of_pos_left hB2 (by positivity)
      _ = 2 ^ ((la : ℕ) : ℤ) := by
          rw [← zpow_add₀ (by norm_num : (2:ℚ) ≠ 0)]
          ring_nf
      _ ≤ (q.num.toNat : ℚ) := hA1
  unfold qExp
  rw [← hla, ← hlb]
  split_ifs with h
  · exact ⟨h, hup⟩
  · refine ⟨le_of_lt hlo, ?_⟩
    have h' := not_le.mp h
    rw [show (la : ℤ) - lb - 1 + 1 = (la : ℤ) - lb by ring]
    exact h'

lemma qExp_eq (q : ℚ) (e : ℤ) (hq : 0 < q)
    (h1 : (2:ℚ) ^ e ≤ q) (h2 : q < 2 ^ (e + 1)) : qExp q = e := by
  obtain ⟨g1, g2⟩ := qExp_spec q hq
  by_contra hne
  rcases lt_or_gt_of_ne hne with hlt | hgt
  · have : (2:ℚ) ^ (qExp q + 1) ≤ 2 ^ e := by
      apply zpow_le_zpow_right₀ (by norm_num) (by omega)
    linarith
  · have : (2:ℚ) ^ (e + 1) ≤ 2 ^ qExp q := by
      apply zpow_le_zpow_right₀ (by norm_num) (by omega)
    linarith

/-- Round to nearest, ties to even (applied to a scaled significand). -/
def roundHalfEven (x : ℚ) : ℤ :=
  if x - ⌊x⌋ < 1/2 then ⌊x⌋
  else if 1/2 < x - ⌊x⌋ then ⌊x⌋ + 1
  else if Even ⌊x⌋ then ⌊x⌋ else ⌊x⌋ + 1

lemma abs_roundHalfEven_sub (x : ℚ) : |(roundHalfEven x : ℚ) - x| ≤ 1/2 := by
  unfold roundHalfEven
  have h1 := Int.floor_le x
  have h2 := Int.lt_floor_add_one x
  split_ifs with a b c <;> rw [abs_le] <;> constructor <;> push_cast <;> linarith

lemma roundHalfEven_nonneg (x : ℚ) (hx : 0 ≤ x) : 0 ≤ roundHalfEven x := by
  have := Int.floor_nonneg.mpr hx
  unfold roundHalfEven
  split_ifs <;> omega

lemma roundHalfEven_intCast (n : ℤ) : roundHalfEven (n:ℚ) = n := by
  unfold roundHalfEven
  rw [Int.floor_intCast]
  norm_num

lemma roundHalfEven_eval (x : ℚ) (n : ℤ) (h : x = (n:ℚ)) :
    roundHalfEven x = n :=
  h ▸ roundHalfEven_intCast n

/-- Round a rational to the nearest IEEE-754 binary64 value (round to
nearest, ties to even): 53 significant bits, unbounded exponent (no
overflow or subnormal handling — every quantity reachable under the
theorems' size hypotheses stays far inside binary64's normal range). -/
def fl (q : ℚ) : ℚ :=
  if q ≤ 0 then 0
  else (roundHalfEven (q * 2 ^ (52 - qExp q)) : ℚ) * 2 ^ (qExp q - 52)

lemma fl_pos (q : ℚ) (hq : 0 < q) : 0 < fl q := by
  unfold fl
  rw [if_neg (not_le.mpr hq)]
  obtain ⟨he1, he2⟩ := qExp_spec q hq
  have hx : (2:ℚ) ^ (52:ℤ) ≤ q * 2 ^ (52 - qExp q) := by
    calc (2:ℚ) ^ (52:ℤ) = 2 ^ qExp q * 2 ^ (52 - qExp q) := by
          rw [← zpow_add₀ (by norm_num : (2:ℚ) ≠ 0)]
          ring_nf
      _ ≤ q * 2 ^ (52 - qExp q) := by
          apply mul_le_mul_of_nonneg_right he1 (by positivity)
  have hr := (abs_le.mp (abs_roundHalfEven_sub (q * 2 ^ (52 - qExp q)))).1
  have h52 : (1:ℚ) ≤ 2 ^ (52:ℤ) := by norm_num
  have hm : (0:ℚ) < (roundHalfEven (q * 2 ^ (52 - qExp q)) : ℚ) := by linarith
  exact mul_pos hm (by positivity)

lemma fl_le (q : ℚ) (hq : 0 < q) : fl q ≤ q * (1 + 2 ^ (-(53:ℤ))) := by
  unfold fl
  rw [if_neg (not_le.mpr hq)]
  obtain ⟨he1, he2⟩ := qExp_spec q hq
  have hr := (abs_le.mp (abs_roundHalfEven_sub (q * 2 ^ (52 - qExp q)))).2
  have hm : (roundHalfEven (q * 2 ^ (52 - qExp q)) : ℚ) ≤
      q * 2 ^ (52 - qExp q) + 1/2 := by
    linarith
  have hz1 : (2:ℚ) ^ (52 - qExp q) * 2 ^ (qExp q - 52) = 1 := by
    rw [← zpow_add₀ (by norm_num : (2:ℚ) ≠ 0)]
    norm_num
  have hz2 : (1/2 : ℚ) * 2 ^ (qExp q - 52) = 2 ^ (qExp q - 53) := by
    rw [show qExp q - 53 = (qExp q - 52) + (-1) by ring,
      zpow_add₀ (by norm_num : (2:ℚ) ≠ 0)]
    norm_num
    ring
  have hz3 : (2:ℚ) ^ (qExp q - 53) ≤ q * 2 ^ (-(53:ℤ)) := by
    rw [show qExp q - 53 = qExp q + (-(53:ℤ)) by ring,
      zpow_add₀ (by norm_num : (2:ℚ) ≠ 0)]
    apply mul_le_mul_of_nonneg_right he1 (by positivity)
  calc (roundHalfEven (q * 2 ^ (52 - qExp q)) : ℚ) * 2 ^ (qExp q - 52)
      ≤ (q * 2 ^ (52 - qExp q) + 1/2) * 2 ^ (qExp q - 52) := by
        apply mul_le_mul_of_nonneg_right hm (by positivity)
    _ = q * (2 ^ (52 - qExp q) * 2 ^ (qExp q - 52)) +
          (1/2) * 2 ^ (qExp q - 52) := by ring
    _ = q + 2 ^ (qExp q - 53) := by rw [hz1, hz2]; ring
    _ ≤ q + q * 2 ^ (-(53:ℤ)) := by linarith [hz3]
    _ = q * (1 + 2 ^ (-(53:ℤ))) := by ring

/-- The scale actually computed by the program,
`scale = min(max_w / w, max_h / h)`, with the two divisions correctly
rounded to binary64 (the `min` of two doubles is exact). -/
def floatScale (w h maxW maxH : ℕ) : ℚ :=
  min (fl ((maxW : ℚ) / w)) (fl ((maxH : ℚ) / h))

/-- Follows the spec's words: the exact-arithmetic scale
`s = min(max_w/w, max_h/h)` over `ℚ`, stating what claim C3 asserts of the
output size; the program computes `floatScale` instead, and the two can
give different truncated sizes (see the C3 counterexample). -/
def exactScale (w h maxW maxH : ℕ) : ℚ :=
  min ((maxW : ℚ) / w) ((maxH : ℚ) / h)

/-- Embeds `fit_into(img, max_w, max_h)`: resizes the image to
`(int(w * scale), int(h * scale))` where the scale and the two products
are computed in binary64 (`fl`; the `int` conversion of `w` and `h` to
double is also rounded).  Python `int` truncates toward zero and all
quantities here are nonnegative, so it is `Int.floor ∘ Int.toNat`. -/
def fit_into (img : Image) (maxW maxH : ℕ) : Image :=
  img.resize
    (⌊fl (fl (img.width : ℚ) *
      floatScale img.width img.height maxW maxH)⌋).toNat
    (⌊fl (fl (img.height : ℚ) *
      floatScale img.width img.height maxW maxH)⌋).toNat

lemma mul_one_add_cubed_lt (mw u : ℚ) (hmw0 : 0 < mw) (hu0 : 0 < u)
    (hu8 : u ≤ 1/8) (hmu : mw * u ≤ 1/8) :
    mw * ((1+u)*(1+u)) * (1+u) < mw + 1 := by
  have b0 : (0:ℚ) ≤ mw * u := le_of_lt (mul_pos hmw0 hu0)
  have b1 : (mw*u)*u ≤ (1/8)*(1/8) := by nlinarith
  have b2 : ((mw*u)*u)*u ≤ ((1/8)*(1/8))*(1/8) := by nlinarith
  have e1 : mw * ((1+u)*(1+u)) * (1+u) =
      mw + (mw*u)*3 + ((mw*u)*u)*3 + ((mw*u)*u)*u := by ring
  rw [e1]
  linarith

/-- Central error bound: the truncated, doubly rounded product
`int(fl(fl w · s))` never exceeds `mw` when `s` is at most the rounded
quotient `fl(mw/w)` and `mw ≤ 2^50` (three relative errors of `2⁻⁵³`
amount to less than one unit). -/
lemma trunc_fl_mul_le (w mw : ℕ) (s : ℚ) (hw : 0 < w) (hmw : 0 < mw)
    (hmw50 : mw ≤ 2 ^ 50) (hs_pos : 0 < s) (hs_le : s ≤ fl ((mw:ℚ)/w)) :
    (⌊fl (fl (w:ℚ) * s)⌋).toNat ≤ mw := by
  have hu0 : (0:ℚ) < 2 ^ (-(53:ℤ)) := by positivity
  have hu8 : (2:ℚ) ^ (-(53:ℤ)) ≤ 1/8 := by norm_num
  have hwQ : (0:ℚ) < (w:ℚ) := by exact_mod_cast hw
  have hmwQ0 : (0:ℚ) < (mw:ℚ) := by exact_mod_cast hmw
  have hflw_pos : 0 < fl (w:ℚ) := fl_pos _ hwQ
  have h1 : fl (w:ℚ) ≤ (w:ℚ) * (1 + 2 ^ (-(53:ℤ))) := fl_le _ hwQ
  have hdiv_pos : (0:ℚ) < (mw:ℚ)/w := div_pos hmwQ0 hwQ
  have h2 : fl ((mw:ℚ)/w) ≤ ((mw:ℚ)/w) * (1 + 2 ^ (-(53:ℤ))) := fl_le _ hdiv_pos
  have h3 : fl (w:ℚ) * s ≤
      ((w:ℚ) * (1 + 2 ^ (-(53:ℤ)))) * (((mw:ℚ)/w) * (1 + 2 ^ (-(53:ℤ)))) :=
    mul_le_mul h1 (hs_le.trans h2) (le_of_lt hs_pos) (by positivity)
  have h4 : ((w:ℚ) * (1 + 2 ^ (-(53:ℤ)))) * (((mw:ℚ)/w) * (1 + 2 ^ (-(53:ℤ)))) =
      (mw:ℚ) * ((1 + 2 ^ (-(53:ℤ)))*(1 + 2 ^ (-(53:ℤ)))) := by
    field_simp
    ring
  have h5 : fl (fl (w:ℚ) * s) ≤ (fl (w:ℚ) * s) * (1 + 2 ^ (-(53:ℤ))) :=
    fl_le _ (mul_pos hflw_pos hs_pos)
  have hmwQ : (mw:ℚ) ≤ 2 ^ 50 := by exact_mod_cast hmw50
  have hmu : (mw:ℚ) * 2 ^ (-(53:ℤ)) ≤ 1/8 := by
    calc (mw:ℚ) * 2 ^ (-(53:ℤ)) ≤ 2^50 * 2 ^ (-(53:ℤ)) := by nlinarith
      _ = 1/8 := by norm_num
  have hchain : fl (fl (w:ℚ) * s) ≤
      (mw:ℚ) * ((1 + 2 ^ (-(53:ℤ)))*(1 + 2 ^ (-(53:ℤ)))) * (1 + 2 ^ (-(53:ℤ))) := by
    calc fl (fl (w:ℚ) * s) ≤ (fl (w:ℚ) * s) * (1 + 2 ^ (-(53:ℤ))) := h5
      _ ≤ (((w:ℚ) * (1 + 2 ^ (-(53:ℤ)))) * (((mw:ℚ)/w) * (1 + 2 ^ (-(53:ℤ))))) *
            (1 + 2 ^ (-(53:ℤ))) := by
          apply mul_le_mul_of_nonneg_right h3 (by positivity)
      _ = (mw:ℚ) * ((1 + 2 ^ (-(53:ℤ)))*(1 + 2 ^ (-(53:ℤ)))) *
            (1 + 2 ^ (-(53:ℤ))) := by rw [h4]
  have hexp := mul_one_add_cubed_lt (mw:ℚ) (2 ^ (-(53:ℤ))) hmwQ0 hu0 hu8 hmu
  have hfl2 : fl (fl (w:ℚ) * s) < (mw:ℚ) + 1 := lt_of_le_of_lt hchain hexp
  have hfloor : ⌊fl (fl (w:ℚ) * s)⌋ < (mw:ℤ) + 1 := by
    apply Int.floor_lt.mpr
    push_cast
    exact hfl2
  exact Int.toNat_le.mpr (by omega)

/-- A concrete 4×2 test image used to instantiate proven theorems. -/
def wImg4x2 : Image := ⟨4, 2, fun _ _ => ⟨1, 2, 3, 255⟩⟩

/-- A concrete 49×49 test image: the input on which the double rounding of
`fit_into` visibly departs from exact arithmetic. -/
def wImg49 : Image := ⟨49, 49, fun _ _ => ⟨1, 2, 3, 255⟩⟩

lemma fl_49 : fl (49:ℚ) = 49 := by
  have he : qExp (49:ℚ) = 5 := qExp_eq _ _ (by norm_num) (by norm_num) (by norm_num)
  unfold fl
  rw [if_neg (by norm_num), he]
  rw [roundHalfEven_eval ((49:ℚ) * 2 ^ (52 - (5:ℤ))) 6896136929411072 (by norm_num)]
  norm_num

lemma fl_inv49 : fl ((1:ℚ)/49) = 5882252574524729 / 288230376151711744 := by
  have he : qExp ((1:ℚ)/49) = -6 := qExp_eq _ _ (by norm_num) (by norm_num) (by norm_num)
  unfold fl
  rw [if_neg (by norm_num), he]
  have hrhe : roundHalfEven ((1/49:ℚ) * 2 ^ (52 - (-6:ℤ))) = 5882252574524729 := by
    rw [show ((1:ℚ)/49) * 2 ^ (52 - (-6:ℤ)) = 288230376151711744/49 by norm_num]
    unfold roundHalfEven
    rw [show ⌊(288230376151711744:ℚ)/49⌋ = 5882252574524729 by norm_num]
    rw [if_pos (by norm_num)]
  rw [hrhe]
  norm_num

lemma fl_prod49 : fl ((49:ℚ) * (5882252574524729 / 288230376151711744)) =
    9007199254740991 / 9007199254740992 := by
  have he : qExp ((49:ℚ) * (5882252574524729 / 288230376151711744)) = -1 :=
    qExp_eq _ _ (by norm_num) (by norm_num) (by norm_num)
  unfold fl
  rw [if_neg (by norm_num), he]
  have hrhe : roundHalfEven (((49:ℚ) * (5882252574524729 / 288230376151711744)) *
      2 ^ (52 - (-1:ℤ))) = 9007199254740991 := by
    rw [show ((49:ℚ) * (5882252574524729 / 288230376151711744)) * 2 ^ (52 - (-1:ℤ)) =
      288230376151711721/32 by norm_num]
    unfold roundHalfEven
    rw [show ⌊(288230376151711721:ℚ)/32⌋ = 9007199254740991 by norm_num]
    rw [if_pos (by norm_num)]
  rw [hrhe]
  norm_num

/-- C3 fails as stated: for the 49×49 image with bounds 1×1 (all positive,
so inside the claim's domain), the program computes
`int(49 * fl(1/49)) = int(1 - 2⁻⁵³) = 0` in binary64, while the claimed
exact-arithmetic size is `⌊49 · min(1/49, 1/49)⌋ = 1`. -/
theorem C3_fit_into_size_counterexample :
    (fit_into wImg49 1 1).width = 0 ∧
    ⌊(wImg49.width : ℚ) * exactScale wImg49.width wImg49.height 1 1⌋₊ = 1 ∧
    (fit_into wImg49 1 1).width ≠
      ⌊(wImg49.width : ℚ) * exactScale wImg49.width wImg49.height 1 1⌋₊ := by
  have hs : floatScale 49 49 1 1 = 5882252574524729 / 288230376151711744 := by
    unfold floatScale
    rw [show ((1:ℕ):ℚ) / ((49:ℕ):ℚ) = (1:ℚ)/49 by norm_num]
    rw [fl_inv49, min_self]
  have h1 : (fit_into wImg49 1 1).width = 0 := by
    have h0 : (fit_into wImg49 1 1).width =
        (⌊fl (fl ((49:ℕ):ℚ) * floatScale 49 49 1 1)⌋).toNat := rfl
    rw [h0, show ((49:ℕ):ℚ) = (49:ℚ) by norm_num, hs, fl_49, fl_prod49]
    norm_num
  have h2 : ⌊(wImg49.width : ℚ) * exactScale wImg49.width wImg49.height 1 1⌋₊ = 1 := by
    show ⌊((49:ℕ):ℚ) * exactScale 49 49 1 1⌋₊ = 1
    unfold exactScale
    rw [show ((1:ℕ):ℚ) / ((49:ℕ):ℚ) = (1:ℚ)/49 by norm_num, min_self,
      show ((49:ℕ):ℚ) = (49:ℚ) by norm_num]
    norm_num
  refine ⟨h1, h2, ?_⟩
  rw [h1, h2]
  omega

/-- C3 (amended): for positive dimensions and positive bounds in the
realistic range (image sides at most `2⁵³`, bounds at most `2⁵⁰`),
`fit_into` returns the image of size `(int(fl(w·s̃)), int(fl(h·s̃)))` where
`s̃ = min(fl(max_w/w), fl(max_h/h))` is the scale as computed in binary64
— each dimension can therefore differ from the exact `⌊w·s⌋` by a unit, as
the counterexample shows — and neither output dimension ever exceeds its
bound; both dimensions are scaled by the same factor `s̃` before
truncation. -/
theorem C3_fit_into_size_amended (img : Image) (maxW maxH : ℕ)
    (hw : 0 < img.width) (hh : 0 < img.height)
    (hw53 : img.width ≤ 2 ^ 53) (hh53 : img.height ≤ 2 ^ 53)
    (hmw : 0 < maxW) (hmh : 0 < maxH)
    (hmw50 : maxW ≤ 2 ^ 50) (hmh50 : maxH ≤ 2 ^ 50) :
    (fit_into img maxW maxH).width =
      (⌊fl (fl (img.width : ℚ) *
        floatScale img.width img.height maxW maxH)⌋).toNat ∧
    (fit_into img maxW maxH).height =
      (⌊fl (fl (img.height : ℚ) *
        floatScale img.width img.height maxW maxH)⌋).toNat ∧
    (fit_into img maxW maxH).width ≤ maxW ∧
    (fit_into img maxW maxH).height ≤ maxH := by
  have hwQ : (0:ℚ) < (img.width : ℚ) := by exact_mod_cast hw
  have hhQ : (0:ℚ) < (img.height : ℚ) := by exact_mod_cast hh
  have hmwQ : (0:ℚ) < (maxW : ℚ) := by exact_mod_cast hmw
  have hmhQ : (0:ℚ) < (maxH : ℚ) := by exact_mod_cast hmh
  have hs_pos : 0 < floatScale img.width img.height maxW maxH := by
    unfold floatScale
    exact lt_min (fl_pos _ (div_pos hmwQ hwQ)) (fl_pos _ (div_pos hmhQ hhQ))
  have hle1 : floatScale img.width img.height maxW maxH ≤
      fl ((maxW:ℚ)/img.width) := by
    unfold floatScale
    exact min_le_left _ _
  have hle2 : floatScale img.width img.height maxW maxH ≤
      fl ((maxH:ℚ)/img.height) := by
    unfold floatScale
    exact min_le_right _ _
  exact ⟨rfl, rfl,
    trunc_fl_mul_le img.width maxW _ hw hmw hmw50 hs_pos hle1,
    trunc_fl_mul_le img.height maxH _ hh hmh hmh50 hs_pos hle2⟩

/-- Witness for the amended C3 on the concrete 4×2 image with bounds 2×2
(all hypotheses discharged concretely). -/
theorem C3_fit_into_size_amended_witness :
    (fit_into wImg4x2 2 2).width =
      (⌊fl (fl (wImg4x2.width : ℚ) *
        floatScale wImg4x2.width wImg4x2.height 2 2)⌋).toNat ∧
    (fit_into wImg4x2 2 2).height =
      (⌊fl (fl (wImg4x2.height : ℚ) *
        floatScale wImg4x2.width wImg4x2.height 2 2)⌋).toNat ∧
    (fit_into wImg4x2 2 2).width ≤ 2 ∧
    (fit_into wImg4x2 2 2).height ≤ 2 :=
  C3_fit_into_size_amended wImg4x2 2 2 (by decide) (by decide) (by decide)
    (by decide) (by decide) (by decide) (by decide) (by decide)

/-- C9: `make_color_transparent` preserves the dimensions and the RGB
components of every pixel; the only change it can make to a pixel is
setting its alpha to 0. -/
theorem C9_remove_color_frame (img : Image) (c : RGB) (t : ℕ) :
    (make_color_transparent img c t).width = img.width ∧
    (make_color_transparent img c t).height = img.height ∧
    ∀ x y,
      ((make_color_transparent img c t).pix x y).r = (img.pix x y).r ∧
      ((make_color_transparent img c t).pix x y).g = (img.pix x y).g ∧
      ((make_color_transparent img c t).pix x y).b = (img.pix x y).b ∧
      ((make_color_transparent img c t).pix x y = img.pix x y ∨
        (make_color_transparent img c t).pix x y =
          ⟨(img.pix x y).r, (img.pix x y).g, (img.pix x y).b, 0⟩) := by
  refine ⟨rfl, rfl, fun x y => ?_⟩
  unfold make_color_transparent transparentize
  dsimp only
  split
  · exact ⟨rfl, rfl, rfl, Or.inr rfl⟩
  · exact ⟨rfl, rfl, rfl, Or.inl rfl⟩

/-- Modelled from the spec: the set of in-bounds positions of
non-transparent pixels (alpha ≠ 0).  `trim-transparent-border` is listed in
§4 of the spec, but no implementation of it is present under `src/`, so it
is modelled from the spec's words. -/
def opaquePoints (img : Image) : Finset (ℕ × ℕ) :=
  (Finset.range img.width ×ˢ Finset.range img.height).filter
    fun q => (img.pix q.1 q.2).a ≠ 0

lemma mem_opaquePoints {img : Image} {q : ℕ × ℕ} :
    q ∈ opaquePoints img ↔
      q.1 < img.width ∧ q.2 < img.height ∧ (img.pix q.1 q.2).a ≠ 0 := by
  simp [opaquePoints, Finset.mem_product, and_assoc]

/-- Modelled from the spec: crop to the rectangle `[x0, x1] × [y0, y1]`
(inclusive pixel bounds). -/
def Image.crop (img : Image) (x0 y0 x1 y1 : ℕ) : Image :=
  ⟨x1 - x0 + 1, y1 - y0 + 1, fun x y => img.pix (x + x0) (y + y0)⟩

/-- Modelled from the spec: the bounding box
`(min x, min y, max x, max y)` of the non-transparent pixels, or `none`
when the image is fully transparent. -/
def bbox (img : Image) : Option (ℕ × ℕ × ℕ × ℕ) :=
  if h : (opaquePoints img).Nonempty then
    some (((opaquePoints img).image Prod.fst).min' (h.image _),
          ((opaquePoints img).image Prod.snd).min' (h.image _),
          ((opaquePoints img).image Prod.fst).max' (h.image _),
          ((opaquePoints img).image Prod.snd).max' (h.image _))
  else none

/-- Modelled from the spec: `trim-transparent-border(image)` crops to the
bounding box of non-transparent pixels and returns the input unchanged if
fully transparent. -/
def trim_transparent_border (img : Image) : Image :=
  match bbox img with
  | some (x0, y0, x1, y1) => img.crop x0 y0 x1 y1
  | none => img

lemma bbox_none_of_empty {img : Image} (h : opaquePoints img = ∅) :
    bbox img = none := by
  unfold bbox
  rw [dif_neg]
  simp [Finset.nonempty_iff_ne_empty, h]

lemma bbox_bounds {img : Image} {x0 y0 x1 y1 : ℕ}
    (hb : bbox img = some (x0, y0, x1, y1)) :
    (∀ q ∈ opaquePoints img, x0 ≤ q.1 ∧ q.1 ≤ x1 ∧ y0 ≤ q.2 ∧ q.2 ≤ y1) ∧
    (∃ q ∈ opaquePoints img, q.1 = x0) ∧
    (∃ q ∈ opaquePoints img, q.1 = x1) ∧
    (∃ q ∈ opaquePoints img, q.2 = y0) ∧
    (∃ q ∈ opaquePoints img, q.2 = y1) := by
  unfold bbox at hb
  by_cases h : (opaquePoints img).Nonempty
  case neg => rw [dif_neg h] at hb; exact absurd hb (by simp)
  rw [dif_pos h] at hb
  obtain ⟨e1, e2, e3, e4⟩ : _ ∧ _ ∧ _ ∧ _ := by simpa using hb
  subst e1; subst e2; subst e3; subst e4
  refine ⟨fun q hq => ?_, ?_, ?_, ?_, ?_⟩
  · exact ⟨Finset.min'_le _ _ (Finset.mem_image_of_mem _ hq),
      Finset.le_max' _ _ (Finset.mem_image_of_mem _ hq),
      Finset.min'_le _ _ (Finset.mem_image_of_mem _ hq),
      Finset.le_max' _ _ (Finset.mem_image_of_mem _ hq)⟩
  · simpa using Finset.mem_image.mp (Finset.min'_mem _ (h.image Prod.fst))
  · simpa using Finset.mem_image.mp (Finset.max'_mem _ (h.image Prod.fst))
  · simpa using Finset.mem_image.mp (Finset.min'_mem _ (h.image Prod.snd))
  · simpa using Finset.mem_image.mp (Finset.max'_mem _ (h.image Prod.snd))

lemma bbox_crop {img : Image} {x0 y0 x1 y1 : ℕ}
    (hb : bbox img = some (x0, y0, x1, y1)) :
    bbox (img.crop x0 y0 x1 y1) = some (0, 0, x1 - x0, y1 - y0) := by
  obtain ⟨hbound, ⟨qx0, hqx0, hqx0e⟩, ⟨qx1, hqx1, hqx1e⟩,
    ⟨qy0, hqy0, hqy0e⟩, ⟨qy1, hqy1, hqy1e⟩⟩ := bbox_bounds hb
  have hmap : ∀ q ∈ opaquePoints img,
      (q.1 - x0, q.2 - y0) ∈ opaquePoints (img.crop x0 y0 x1 y1) := by
    intro q hq
    obtain ⟨h1, h2, h3, h4⟩ := hbound q hq
    rw [mem_opaquePoints]
    refine ⟨?_, ?_, ?_⟩
    · show q.1 - x0 < x1 - x0 + 1
      omega
    · show q.2 - y0 < y1 - y0 + 1
      omega
    · show (img.pix (q.1 - x0 + x0) (q.2 - y0 + y0)).a ≠ 0
      have e1 : q.1 - x0 + x0 = q.1 := by omega
      have e2 : q.2 - y0 + y0 = q.2 := by omega
      rw [e1, e2]
      exact (mem_opaquePoints.mp hq).2.2
  have hback : ∀ q' ∈ opaquePoints (img.crop x0 y0 x1 y1),
      q'.1 ≤ x1 - x0 ∧ q'.2 ≤ y1 - y0 := by
    intro q' hq'
    obtain ⟨h1, h2, _⟩ := mem_opaquePoints.mp hq'
    simp only [Image.crop] at h1 h2
    omega
  have hne : (opaquePoints (img.crop x0 y0 x1 y1)).Nonempty :=
    ⟨_, hmap qx0 hqx0⟩
  unfold bbox
  rw [dif_pos hne]
  simp only [Option.some.injEq, Prod.mk.injEq]
  refine ⟨?_, ?_, ?_, ?_⟩
  · refine Nat.le_zero.mp (Finset.min'_le _ _ ?_)
    exact Finset.mem_image.mpr ⟨(qx0.1 - x0, qx0.2 - y0), hmap qx0 hqx0,
      by rw [hqx0e]; omega⟩
  · refine Nat.le_zero.mp (Finset.min'_le _ _ ?_)
    exact Finset.mem_image.mpr ⟨(qy0.1 - x0, qy0.2 - y0), hmap qy0 hqy0,
      by show qy0.2 - y0 = 0; rw [hqy0e]; omega⟩
  · refine le_antisymm (Finset.max'_le _ _ _ ?_) (Finset.le_max' _ _ ?_)
    · intro a ha
      obtain ⟨q', hq', rfl⟩ := Finset.mem_image.mp ha
      exact (hback q' hq').1
    · exact Finset.mem_image.mpr ⟨(qx1.1 - x0, qx1.2 - y0), hmap qx1 hqx1,
        by rw [hqx1e]⟩
  · refine le_antisymm (Finset.max'_le _ _ _ ?_) (Finset.le_max' _ _ ?_)
    · intro a ha
      obtain ⟨q', hq', rfl⟩ := Finset.mem_image.mp ha
      exact (hback q' hq').2
    · exact Finset.mem_image.mpr ⟨(qy1.1 - x0, qy1.2 - y0), hmap qy1 hqy1,
        by show qy1.2 - y0 = y1 - y0; rw [hqy1e]⟩

/-- A concrete fully transparent 1×1 image used to instantiate proven
theorems. -/
def wImgT : Image := ⟨1, 1, fun _ _ => ⟨0, 0, 0, 0⟩⟩

/-- C2: `trim-transparent-border` is idempotent (applying it twice yields
the same image as applying it once), and applied to a fully transparent
image it returns the input unchanged. -/
theorem C2_trim_idempotent_and_transparent (img : Image) :
    trim_transparent_border (trim_transparent_border img) =
      trim_transparent_border img ∧
    ((∀ x, x < img.width → ∀ y, y < img.height → (img.pix x y).a = 0) →
      trim_transparent_border img = img) := by
  constructor
  · cases hb : bbox img with
    | none =>
        have h1 : trim_transparent_border img = img := by
          unfold trim_transparent_border
          rw [hb]
        rw [h1]
        exact h1
    | some t =>
        obtain ⟨x0, y0, x1, y1⟩ := t
        have h1 : trim_transparent_border img = img.crop x0 y0 x1 y1 := by
          unfold trim_transparent_border
          rw [hb]
        have h3 : trim_transparent_border (img.crop x0 y0 x1 y1) =
            (img.crop x0 y0 x1 y1).crop 0 0 (x1 - x0) (y1 - y0) := by
          unfold trim_transparent_border
          rw [bbox_crop hb]
        rw [h1, h3]
        rfl
  · intro htr
    have he : opaquePoints img = ∅ := by
      rw [Finset.eq_empty_iff_forall_not_mem]
      intro q hq
      obtain ⟨h1, h2, h3⟩ := mem_opaquePoints.mp hq
      exact h3 (htr q.1 h1 q.2 h2)
    unfold trim_transparent_border
    rw [bbox_none_of_empty he]

/-- Witness for C2 on the concrete fully transparent image. -/
theorem C2_trim_idempotent_and_transparent_witness :
    trim_transparent_border (trim_transparent_border wImgT) =
      trim_transparent_border wImgT ∧
    trim_transparent_border wImgT = wImgT :=
  ⟨(C2_trim_idempotent_and_transparent wImgT).1,
   (C2_trim_idempotent_and_transparent wImgT).2 (by decide)⟩

/-- Per-pixel source-over blending, as performed by
`Image.alpha_composite`.  The exact 8-bit rounding is library code; the
formula below is the standard source-over blend, and no verified property
depends on blended pixel values. -/
def overPixel (s d : Pixel) : Pixel :=
  let outA := s.a * 255 + d.a * (255 - s.a)
  if outA = 0 then ⟨0, 0, 0, 0⟩
  else ⟨(s.r * s.a * 255 + d.r * d.a * (255 - s.a)) / outA,
        (s.g * s.a * 255 + d.g * d.a * (255 - s.a)) / outA,
        (s.b * s.a * 255 + d.b * d.a * (255 - s.a)) / outA,
        outA / 255⟩

/-- Embeds `dst.alpha_composite(src, (px, py))`: blends `src` over `dst` at
destination position `(px, py)`.  The destination keeps its dimensions;
source pixels falling outside the destination are clipped. -/
def alpha_composite (dst src : Image) (px py : ℕ) : Image :=
  ⟨dst.width, dst.height, fun x y =>
    if px ≤ x ∧ x < px + src.width ∧ py ≤ y ∧ y < py + src.height then
      overPixel (src.pix (x - px) (y - py)) (dst.pix x y)
    else dst.pix x y⟩

/-- The sidebar configuration read by `generate_image`: overlay position
and maximum overlay dimensions. -/
structure GenConfig where
  overlay_x : ℕ
  overlay_y : ℕ
  overlay_max_w : ℕ
  overlay_max_h : ℕ

/-- The two rasters alive during a `generate_image` call: the template
object passed in, and the canvas created by `template.copy()`. -/
structure GenState where
  template : Image
  canvas : Image

/-- The canvas contents after the `if overlay:` branch of
`generate_image`: the overlay, resized by `fit_into` to the configured
maximum dimensions, alpha-composited at the configured position. -/
def composited (cfg : GenConfig) (template : Image) (overlay : Option Image) :
    Image :=
  match overlay with
  | some ov =>
      alpha_composite template (fit_into ov cfg.overlay_max_w cfg.overlay_max_h)
        cfg.overlay_x cfg.overlay_y
  | none => template

/-- Embeds `generate_image(template, overlay, custom_text, font)` with the
mutation made explicit: `canvas = template.copy()` gives the canvas slot
its own raster, and compositing and text drawing write only to the canvas
slot, so the template slot passes through.  `drawText` stands for
`ImageDraw.multiline_text` with the font, color, spacing and alignment
already applied; text rasterisation is library code.  An empty string is
falsy in Python, so `if custom_text:` skips drawing for empty text. -/
def generate_image_run (cfg : GenConfig) (drawText : Image → String → Image)
    (template : Image) (overlay : Option Image) (custom_text : String) :
    GenState :=
  if custom_text ≠ "" then
    ⟨template, drawText (composited cfg template overlay) custom_text⟩
  else
    ⟨template, composited cfg template overlay⟩

/-- The value returned by `generate_image`: the canvas. -/
def generate_image (cfg : GenConfig) (drawText : Image → String → Image)
    (template : Image) (overlay : Option Image) (custom_text : String) :
    Image :=
  (generate_image_run cfg drawText template overlay custom_text).canvas

lemma composited_width (cfg : GenConfig) (template : Image)
    (overlay : Option Image) :
    (composited cfg template overlay).width = template.width := by
  cases overlay <;> rfl

lemma composited_height (cfg : GenConfig) (template : Image)
    (overlay : Option Image) :
    (composited cfg template overlay).height = template.height := by
  cases overlay <;> rfl

/-- A concrete overlay-position configuration (the sidebar defaults) used
to instantiate proven theorems. -/
def wCfg : GenConfig := ⟨400, 1060, 225, 175⟩

/-- C8: `generate_image` operates on a copy of the template: for every
template, optional overlay, text and size-preserving text renderer, the
template slot is unchanged after the call, and the returned raster has the
template's dimensions. -/
theorem C8_generate_image_frame (cfg : GenConfig)
    (drawText : Image → String → Image) (template : Image)
    (overlay : Option Image) (custom_text : String)
    (hdraw : ∀ im t, (drawText im t).width = im.width ∧
      (drawText im t).height = im.height) :
    (generate_image_run cfg drawText template overlay custom_text).template =
      template ∧
    (generate_image cfg drawText template overlay custom_text).width =
      template.width ∧
    (generate_image cfg drawText template overlay custom_text).height =
      template.height := by
  unfold generate_image generate_image_run
  split_ifs with ht
  · exact ⟨rfl,
      ((hdraw _ custom_text).1).trans (composited_width cfg template overlay),
      ((hdraw _ custom_text).2).trans (composited_height cfg template overlay)⟩
  · exact ⟨rfl, composited_width cfg template overlay,
      composited_height cfg template overlay⟩

/-- Witness for C8 with the identity text renderer, a concrete template,
overlay and text. -/
theorem C8_generate_image_frame_witness :
    (generate_image_run wCfg (fun im _ => im) wImg (some wImg4x2)
        "hi").template = wImg ∧
    (generate_image wCfg (fun im _ => im) wImg (some wImg4x2)
        "hi").width = wImg.width ∧
    (generate_image wCfg (fun im _ => im) wImg (some wImg4x2)
        "hi").height = wImg.height :=
  C8_generate_image_frame wCfg (fun im _ => im) wImg (some wImg4x2) "hi"
    (fun _ _ => ⟨rfl, rfl⟩)

/-- Python `line.split('|')` at the character level: splits at every
occurrence of the separator, producing `n + 1` fields for `n` separators
(empty fields included). -/
def splitFields : List Char → List (List Char)
  | [] => [[]]
  | c :: cs =>
      if c = '|' then [] :: splitFields cs
      else
        match splitFields cs with
        | f :: rest => (c :: f) :: rest
        | [] => [[c]]

/-- Python `str.strip()` at the character level (for the ASCII whitespace
set): removes leading and trailing whitespace. -/
def trimChars (l : List Char) : List Char :=
  ((l.dropWhile Char.isWhitespace).reverse.dropWhile Char.isWhitespace).reverse

/-- Embeds `parts = [p.strip() for p in line.split('|')]` of the tab-2 batch
loop. -/
def stripParts (line : String) : List String :=
  (splitFields line.data).map fun f => String.mk (trimChars f)

/-- The data extracted from one batch line: output filename, rendered
text, and the overlay selector when the last field names a known
overlay. -/
structure BatchItem where
  filename : String
  text : String
  overlayName : Option String
deriving DecidableEq, Repr

/-- The parsing part of one tab-2 batch iteration: a line with fewer than
two pipe-delimited fields is skipped (`none`); otherwise the first field
is the filename, and when the last field is a key of `overlays_dict` it is
the overlay selector and the middle fields `parts[1:-1]` joined by
newlines are the text; otherwise all fields after the first (`parts[1:]`)
are the text. -/
def parseBatchLine (names : List String) (line : String) : Option BatchItem :=
  if (stripParts line).length < 2 then none
  else if (stripParts line).getLastD "" ∈ names then
    some ⟨(stripParts line).getD 0 "",
      String.intercalate "\n" ((stripParts line).drop 1).dropLast,
      some ((stripParts line).getLastD "")⟩
  else
    some ⟨(stripParts line).getD 0 "",
      String.intercalate "\n" ((stripParts line).drop 1), none⟩

/-- Insertion into a Python `dict`, modelled as an ordered association
list: writing to a present key keeps its position and replaces its value;
a new key is appended at the end. -/
def dictInsert {α : Type} (k : String) (v : α) (d : List (String × α)) :
    List (String × α) :=
  if d.any fun kv => kv.1 == k then
    d.map fun kv => if kv.1 == k then (k, v) else kv
  else d ++ [(k, v)]

/-- The render step of one batch iteration:
`generate_image(template, overlay, custom_text, font)` with the overlay
looked up in `overlays_dict` when the parser selected one. -/
def renderItem (cfg : GenConfig) (drawText : Image → String → Image)
    (template : Image) (overlays : List (String × Image))
    (item : BatchItem) : Image :=
  generate_image cfg drawText template
    (match item.overlayName with
     | some nm => (overlays.find? fun kv => kv.1 == nm).map Prod.snd
     | none => none)
    item.text

/-- One full iteration of the tab-2 batch loop over `generated_images`:
malformed lines contribute nothing, well-formed lines store the generated
image under the key `filename + ".png"`. -/
def batchStep (cfg : GenConfig) (drawText : Image → String → Image)
    (template : Image) (overlays : List (String × Image))
    (acc : List (String × Image)) (line : String) :
    List (String × Image) :=
  match parseBatchLine (overlays.map Prod.fst) line with
  | none => acc
  | some item =>
      dictInsert (item.filename ++ ".png")
        (renderItem cfg drawText template overlays item) acc

/-- Embeds `batch-generate`: folds the batch loop over the input lines starting
from the empty dict.  The ZIP packaging then writes exactly one archive
entry per dict item, in order, named by the key. -/
def batchGenerate (cfg : GenConfig) (drawText : Image → String → Image)
    (template : Image) (overlays : List (String × Image))
    (lines : List String) : List (String × Image) :=
  lines.foldl (batchStep cfg drawText template overlays) []

/-- The stripped first pipe-delimited field of a line. -/
def lineFilename (line : String) : String :=
  (stripParts line).getD 0 ""

/-- Appending `".png"` to a filename is injective. -/
lemma append_png_inj {s t : String} (h : s ++ ".png" = t ++ ".png") :
    s = t := by
  have hd := congrArg String.data h
  rw [String.data_append, String.data_append] at hd
  exact String.ext (List.append_cancel_right hd)

/-- A line with at least two fields always parses, and the parsed filename
is its stripped first field. -/
lemma parse_valid (names : List String) (line : String)
    (hv : 2 ≤ (stripParts line).length) :
    ∃ item, parseBatchLine names line = some item ∧
      item.filename = lineFilename line := by
  unfold parseBatchLine
  rw [if_neg (by omega)]
  split_ifs with hm
  · exact ⟨_, rfl, rfl⟩
  · exact ⟨_, rfl, rfl⟩

/-- C6: for a line with at least two pipe-delimited fields, if the last
stripped field is the name of a known overlay it becomes the overlay
selector and the middle fields joined by newlines become the text;
otherwise no overlay is selected and all fields after the first become
the text. -/
theorem C6_overlay_detection (names : List String) (line : String)
    (h2 : 2 ≤ (stripParts line).length) :
    ((stripParts line).getLastD "" ∈ names →
      parseBatchLine names line =
        some ⟨(stripParts line).getD 0 "",
          String.intercalate "\n" ((stripParts line).drop 1).dropLast,
          some ((stripParts line).getLastD "")⟩) ∧
    ((stripParts line).getLastD "" ∉ names →
      parseBatchLine names line =
        some ⟨(stripParts line).getD 0 "",
          String.intercalate "\n" ((stripParts line).drop 1), none⟩) := by
  constructor
  · intro hm
    unfold parseBatchLine
    rw [if_neg (by omega), if_pos hm]
  · intro hm
    unfold parseBatchLine
    rw [if_neg (by omega), if_neg hm]

/-- Witness for C6 on a concrete three-field line whose last field names a
known overlay. -/
theorem C6_overlay_detection_witness :
    parseBatchLine ["o.png"] "f | t | o.png" =
      some ⟨"f", "t", some "o.png"⟩ :=
  ((C6_overlay_detection ["o.png"] "f | t | o.png" (by decide)).1
    (by decide)).trans (by decide)

/-- C7: a line with fewer than two pipe-delimited fields contributes no
archive entry, wherever it occurs, and processing continues with the
remaining lines (the warning itself is UI output). -/
theorem C7_malformed_line_skipped (cfg : GenConfig)
    (drawText : Image → String → Image) (template : Image)
    (overlays : List (String × Image)) (line : String)
    (hbad : (stripParts line).length < 2) (pre post : List String) :
    batchGenerate cfg drawText template overlays (pre ++ line :: post) =
      batchGenerate cfg drawText template overlays (pre ++ post) := by
  have hstep : ∀ acc, batchStep cfg drawText template overlays acc line =
      acc := by
    intro acc
    unfold batchStep parseBatchLine
    rw [if_pos hbad]
  unfold batchGenerate
  rw [List.foldl_append, List.foldl_append, List.foldl_cons, hstep]

/-- Witness for C7: a one-field line between two valid lines changes
nothing. -/
theorem C7_malformed_line_skipped_witness :
    batchGenerate wCfg (fun im _ => im) wImg []
        (["a | x"] ++ "bad" :: ["b | y"]) =
      batchGenerate wCfg (fun im _ => im) wImg [] (["a | x"] ++ ["b | y"]) :=
  C7_malformed_line_skipped wCfg (fun im _ => im) wImg [] "bad" (by decide)
    ["a | x"] ["b | y"]

/-- C10: a two-field line whose second field names a known overlay parses
to that overlay selector with empty text, and `generate_image` with empty
text draws no text at all: the result is exactly the template with the
overlay composited (the overlay file name is never rendered as text). -/
theorem C10_two_field_overlay_line (names : List String) (line : String)
    (hlen : (stripParts line).length = 2)
    (hmem : (stripParts line).getLastD "" ∈ names) :
    parseBatchLine names line =
      some ⟨(stripParts line).getD 0 "", "",
        some ((stripParts line).getLastD "")⟩ ∧
    ∀ (cfg : GenConfig) (drawText : Image → String → Image)
      (template ovImg : Image),
      generate_image cfg drawText template (some ovImg) "" =
        alpha_composite template
          (fit_into ovImg cfg.overlay_max_w cfg.overlay_max_h)
          cfg.overlay_x cfg.overlay_y := by
  constructor
  · have h1 : ((stripParts line).drop 1).length = 1 := by
      rw [List.length_drop, hlen]
    obtain ⟨a, ha⟩ := List.length_eq_one.mp h1
    have hmid : ((stripParts line).drop 1).dropLast = [] := by
      rw [ha]
      rfl
    unfold parseBatchLine
    rw [if_neg (by omega), if_pos hmem, hmid]
    rfl
  · intro cfg drawText template ovImg
    rfl

/-- Witness for C10 on the concrete two-field line `"f | o.png"`. -/
theorem C10_two_field_overlay_line_witness :
    parseBatchLine ["o.png"] "f | o.png" = some ⟨"f", "", some "o.png"⟩ ∧
    generate_image wCfg (fun im _ => im) wImg (some wImg4x2) "" =
      alpha_composite wImg
        (fit_into wImg4x2 wCfg.overlay_max_w wCfg.overlay_max_h)
        wCfg.overlay_x wCfg.overlay_y :=
  ⟨((C10_two_field_overlay_line ["o.png"] "f | o.png" (by decide)
      (by decide)).1).trans (by decide),
   (C10_two_field_overlay_line ["o.png"] "f | o.png" (by decide)
      (by decide)).2 wCfg (fun im _ => im) wImg wImg4x2⟩

/-- C1 fails as stated: these two lines are both valid (two fields each),
but both have first field `"a"`, so the dict keyed by `filename + ".png"`
holds a single entry and the archive gets 1 entry, not 2. -/
theorem C1_batch_count_counterexample :
    (∀ l ∈ (["a | x", "a | y"] : List String),
      2 ≤ (stripParts l).length) ∧
    (["a | x", "a | y"] : List String).length = 2 ∧
    (batchGenerate wCfg (fun im _ => im) wImg []
      ["a | x", "a | y"]).length = 1 :=
  ⟨by decide, rfl, by decide⟩

lemma batch_keys_of_nodup (cfg : GenConfig)
    (drawText : Image → String → Image) (template : Image)
    (overlays : List (String × Image)) (lines : List String) :
    ∀ acc : List (String × Image),
      (∀ l ∈ lines, 2 ≤ (stripParts l).length) →
      (lines.map lineFilename).Nodup →
      (∀ l ∈ lines, (lineFilename l ++ ".png") ∉ acc.map Prod.fst) →
      (lines.foldl (batchStep cfg drawText template overlays) acc).map
          Prod.fst =
        acc.map Prod.fst ++ lines.map fun l => lineFilename l ++ ".png" := by
  induction lines with
  | nil => intro acc _ _ _; simp
  | cons l ls ih =>
      intro acc hvalid hdist hdisj
      obtain ⟨item, hpe, hfn⟩ :=
        parse_valid (overlays.map Prod.fst) l (hvalid l (by simp))
      have hkey : (item.filename ++ ".png") ∉ acc.map Prod.fst := by
        rw [hfn]
        exact hdisj l (by simp)
      have hany : (acc.any fun kv => kv.1 == (item.filename ++ ".png")) =
          false := by
        rw [List.any_eq_false]
        intro kv hkv
        simp only [beq_iff_eq]
        intro he
        exact hkey (he ▸ List.mem_map_of_mem Prod.fst hkv)
      have hstep : batchStep cfg drawText template overlays acc l =
          acc ++ [(item.filename ++ ".png",
            renderItem cfg drawText template overlays item)] := by
        unfold batchStep dictInsert
        rw [hpe]
        simp [hany]
      rw [List.foldl_cons, hstep,
        ih _ (fun l' hl' => hvalid l' (List.mem_cons_of_mem _ hl'))
          (by rw [List.map_cons] at hdist; exact hdist.of_cons) ?_]
      · simp [hfn]
      · intro l' hl' hin
        rw [List.map_append, List.mem_append] at hin
        rcases hin with hin | hin
        · exact hdisj l' (List.mem_cons_of_mem _ hl') hin
        · have heq : lineFilename l' ++ ".png" = item.filename ++ ".png" := by
            simpa using hin
          have hsame : lineFilename l' = lineFilename l := by
            rw [← hfn]
            exact append_png_inj heq
          have hmem : lineFilename l ∈ ls.map lineFilename :=
            hsame ▸ List.mem_map_of_mem _ hl'
          rw [List.map_cons] at hdist
          exact (List.nodup_cons.mp hdist).1 hmem

/-- C1 (amended): on valid lines whose stripped first fields are pairwise
distinct, the batch loop produces exactly one archive entry per line, in
order, named by the line's first field with `".png"` appended (when first
fields repeat, later lines overwrite earlier dict entries and fewer
entries result). -/
theorem C1_batch_entries_amended (cfg : GenConfig)
    (drawText : Image → String → Image) (template : Image)
    (overlays : List (String × Image)) (lines : List String)
    (hvalid : ∀ l ∈ lines, 2 ≤ (stripParts l).length)
    (hdist : (lines.map lineFilename).Nodup) :
    (batchGenerate cfg drawText template overlays lines).map Prod.fst =
      lines.map fun l => lineFilename l ++ ".png" := by
  have h := batch_keys_of_nodup cfg drawText template overlays lines []
    hvalid hdist (by simp)
  simpa using h

/-- Witness for the amended C1 on two valid lines with distinct
filenames. -/
theorem C1_batch_entries_amended_witness :
    (batchGenerate wCfg (fun im _ => im) wImg []
        ["a | x", "b | y"]).map Prod.fst =
      (["a | x", "b | y"] : List String).map fun l =>
        lineFilename l ++ ".png" :=
  C1_batch_entries_amended wCfg (fun im _ => im) wImg [] ["a | x", "b | y"]
    (by decide) (by decide)

end ImageGen
